import Mathlib

/-!
Verification of the PRISM color-stratified point-cloud sampler
(`prism_sampling` in `PRISM.py`) against its specification.

The embedding models:
* colors and points as rational triples (`Vec3`);
* the chromaticity / raw color transform (`colorToBin`);
* quantization with numpy's round-half-to-even and int32 wraparound
  (`roundHalfEven`, `wrap32`, `quantizeColor`);
* the packed byte view used for sorting (`packBytes`, `packKey`,
  `bytesLe` — memcmp on little-endian int32 bytes);
* the shuffle / argsort / unique-counts / intra-group-counter /
  mask pipeline (`shuffledKeys`, `sortOrder`, `sortedKeys`,
  `intraGroupCounter`, `keepMask`, `finalOriginalIndices`);
* the final gather into a fresh cloud (`prism_sampling`).

The ambient numpy RNG is modelled by passing the shuffled index list
explicitly; theorems hypothesise that it is a permutation of
`range N`, which is what `np.random.shuffle(np.arange(N))` produces.
-/

namespace PRISM

/-- A 3-component vector (position, color or normal), components as ℚ. -/
structure Vec3 where
  x : ℚ
  y : ℚ
  z : ℚ
deriving DecidableEq

/-- A point cloud: index-aligned positions, colors, optional normals. -/
structure PointCloud where
  points : List Vec3
  colors : List Vec3
  normals : Option (List Vec3)
deriving DecidableEq

def defaultVec : Vec3 := ⟨0, 0, 0⟩

/-- Denominator of the chromaticity normalization:
`np.sum(colors, axis=1) + 1e-6`. -/
def chromaDenom (c : Vec3) : ℚ := c.x + c.y + c.z + 1 / 1000000

/-- `colors / sum_colors * 255.0` (chromaticity branch). -/
def chromaTransform (c : Vec3) : Vec3 :=
  ⟨c.x / chromaDenom c * 255, c.y / chromaDenom c * 255, c.z / chromaDenom c * 255⟩

/-- `colors * 255.0` (raw branch). -/
def rawTransform (c : Vec3) : Vec3 :=
  ⟨c.x * 255, c.y * 255, c.z * 255⟩

/-- Step 1 of `prism_sampling`: the color transformation. -/
def colorToBin (use_chromaticity : Bool) (c : Vec3) : Vec3 :=
  if use_chromaticity then chromaTransform c else rawTransform c

/-- numpy's `.round()`: round half to even. -/
def roundHalfEven (x : ℚ) : ℤ :=
  if x - ⌊x⌋ < 1 / 2 then ⌊x⌋
  else if 1 / 2 < x - ⌊x⌋ then ⌊x⌋ + 1
  else if 2 ∣ ⌊x⌋ then ⌊x⌋ else ⌊x⌋ + 1

/-- A quantized color bin key: the int32 triple produced by
`(colors_to_bin / quantization).round().astype(np.int32)`. -/
abbrev Key := ℤ × ℤ × ℤ

/-- Wraparound conversion to int32 (`astype(np.int32)`). -/
def wrap32 (z : ℤ) : ℤ := (z + 2147483648) % 4294967296 - 2147483648

/-- Step 2 of `prism_sampling`: quantization of one color into its bin key. -/
def quantizeColor (use_chromaticity : Bool) (quantization : ℚ) (c : Vec3) : Key :=
  (wrap32 (roundHalfEven ((colorToBin use_chromaticity c).x / quantization)),
   wrap32 (roundHalfEven ((colorToBin use_chromaticity c).y / quantization)),
   wrap32 (roundHalfEven ((colorToBin use_chromaticity c).z / quantization)))

/-- The little-endian bytes of one int32 component, as stored in the
`np.void` packed view. -/
def packBytes (z : ℤ) : List ℕ :=
  [(z % 4294967296).toNat % 256,
   (z % 4294967296).toNat / 256 % 256,
   (z % 4294967296).toNat / 65536 % 256,
   (z % 4294967296).toNat / 16777216 % 256]

/-- The 12-byte packed composite key (`colors_quant.view(np.void)` row). -/
def packKey (t : Key) : List ℕ :=
  packBytes t.1 ++ packBytes t.2.1 ++ packBytes t.2.2

/-- memcmp-style lexicographic comparison of byte strings, the order used
by numpy to sort the packed void dtype. -/
def bytesLe : List ℕ → List ℕ → Bool
  | [], _ => true
  | _ :: _, [] => false
  | a :: as, b :: bs => if a < b then true else if b < a then false else bytesLe as bs

/-- The sort order on bin keys: byte order of their packed representation. -/
def keyLeB (a b : Key) : Bool := bytesLe (packKey a) (packKey b)

/-- `colors_quant`: the bin key of every input color, in input order. -/
def quantKeys (pcd : PointCloud) (quantization : ℚ) (use_chromaticity : Bool) : List Key :=
  pcd.colors.map (quantizeColor use_chromaticity quantization)

def defaultKey : Key := (0, 0, 0)

/-- `colors_packed_shuffled` (up to packing): the keys reindexed by the
shuffled index list. -/
def shuffledKeys (pcd : PointCloud) (quantization : ℚ) (use_chromaticity : Bool)
    (shuffle : List ℕ) : List Key :=
  shuffle.map (fun i => (quantKeys pcd quantization use_chromaticity).getD i defaultKey)

/-- `sort_order = np.argsort(colors_packed_shuffled)`: a permutation of
`range N` arranging the shuffled keys into byte order. -/
def sortOrder (pcd : PointCloud) (quantization : ℚ) (use_chromaticity : Bool)
    (shuffle : List ℕ) : List ℕ :=
  List.insertionSort
    (fun i j =>
      keyLeB ((shuffledKeys pcd quantization use_chromaticity shuffle).getD i defaultKey)
        ((shuffledKeys pcd quantization use_chromaticity shuffle).getD j defaultKey) = true)
    (List.range pcd.points.length)

/-- `sorted_colors`: the shuffled keys in sorted order. -/
def sortedKeys (pcd : PointCloud) (quantization : ℚ) (use_chromaticity : Bool)
    (shuffle : List ℕ) : List Key :=
  (sortOrder pcd quantization use_chromaticity shuffle).map
    (fun p => (shuffledKeys pcd quantization use_chromaticity shuffle).getD p defaultKey)

/-- Helper for `intraGroupCounter`: walks the sorted key list carrying the
previous key and the counter value of the previous element. -/
def countersAux : Option Key → ℕ → List Key → List ℕ
  | _, _, [] => []
  | none, _, k :: ks => 0 :: countersAux (some k) 0 ks
  | some p, c, k :: ks =>
    if k = p then (c + 1) :: countersAux (some k) (c + 1) ks
    else 0 :: countersAux (some k) 0 ks

/-- `intra_group_counter = np.arange(len) - np.repeat(unique_indices, unique_counts)`:
for each position in the sorted key list, its offset from the start of its
run of equal keys. -/
def intraGroupCounter (l : List Key) : List ℕ := countersAux none 0 l

/-- Boolean-mask selection, numpy's `a[mask]`. -/
def maskFilter {α : Type} : List α → List Bool → List α
  | [], _ => []
  | _, [] => []
  | a :: as, b :: bs => if b then a :: maskFilter as bs else maskFilter as bs

/-- `keep_mask_in_sorted = intra_group_counter < k`. -/
def keepMask (pcd : PointCloud) (k : ℤ) (quantization : ℚ) (use_chromaticity : Bool)
    (shuffle : List ℕ) : List Bool :=
  (intraGroupCounter (sortedKeys pcd quantization use_chromaticity shuffle)).map
    (fun (c : ℕ) => decide ((c : ℤ) < k))

/-- `final_original_indices = shuffled_indices[sort_order[keep_mask_in_sorted]]`. -/
def finalOriginalIndices (pcd : PointCloud) (k : ℤ) (quantization : ℚ)
    (use_chromaticity : Bool) (shuffle : List ℕ) : List ℕ :=
  (maskFilter (sortOrder pcd quantization use_chromaticity shuffle)
      (keepMask pcd k quantization use_chromaticity shuffle)).map
    (fun p => shuffle.getD p 0)

/-- The PRISM sampler (`prism_sampling` in `PRISM.py`): returns the input
unchanged on an empty cloud, otherwise gathers points, colors and (if
present) normals at the selected original indices into a fresh cloud. -/
def prism_sampling (pcd : PointCloud) (k : ℤ) (quantization : ℚ)
    (use_chromaticity : Bool) (shuffle : List ℕ) : PointCloud :=
  if pcd.points.length = 0 then pcd
  else
    { points := (finalOriginalIndices pcd k quantization use_chromaticity shuffle).map
        (fun j => pcd.points.getD j defaultVec),
      colors := (finalOriginalIndices pcd k quantization use_chromaticity shuffle).map
        (fun j => pcd.colors.getD j defaultVec),
      normals := match pcd.normals with
        | some ns => some ((finalOriginalIndices pcd k quantization use_chromaticity shuffle).map
            (fun j => ns.getD j defaultVec))
        | none => none }

/-- Capping a sorted key list: what the mask keeps of it. -/
def capKeep (k : ℤ) (l : List Key) : List Key :=
  maskFilter l ((intraGroupCounter l).map (fun (c : ℕ) => decide ((c : ℤ) < k)))

example : roundHalfEven (1 / 2) = 0 := by norm_num [roundHalfEven]
example : roundHalfEven (3 / 2) = 2 := by norm_num [roundHalfEven]
example : roundHalfEven (255 / 2) = 128 := by norm_num [roundHalfEven]
example : roundHalfEven (-1 / 2) = 0 := by norm_num [roundHalfEven]
example : wrap32 2147483648 = -2147483648 := by decide
example : quantizeColor false 1 ⟨1, 0, 0⟩ = (255, 0, 0) := by
  norm_num [quantizeColor, colorToBin, rawTransform, roundHalfEven, wrap32]
example :
    prism_sampling ⟨[⟨0, 0, 0⟩], [⟨1, 0, 0⟩], none⟩ 0 1 true [0] = ⟨[], [], none⟩ := by decide

/-! ### The byte order used for sorting packed keys -/

theorem bytesLe_total : ∀ a b : List ℕ, bytesLe a b = true ∨ bytesLe b a = true := by
  intro a
  induction a with
  | nil => intro b; left; rfl
  | cons x xs ih =>
    intro b
    cases b with
    | nil => right; rfl
    | cons y ys =>
      rcases Nat.lt_trichotomy x y with h | h | h
      · left; simp [bytesLe, h]
      · subst h
        rcases ih ys with h2 | h2
        · left; simpa [bytesLe] using h2
        · right; simpa [bytesLe] using h2
      · right; simp [bytesLe, h]

theorem bytesLe_trans : ∀ a b c : List ℕ,
    bytesLe a b = true → bytesLe b c = true → bytesLe a c = true := by
  intro a
  induction a with
  | nil => intro b c _ _; rfl
  | cons x xs ih =>
    intro b c hab hbc
    cases b with
    | nil => simp [bytesLe] at hab
    | cons y ys =>
      cases c with
      | nil => simp [bytesLe] at hbc
      | cons z zs =>
        simp only [bytesLe] at hab hbc ⊢
        by_cases hxy : x < y
        · have hyz : y ≤ z := by
            by_contra hzy
            push_neg at hzy
            simp [Nat.not_lt.mpr (le_of_lt hzy), hzy] at hbc
          simp [Nat.lt_of_lt_of_le hxy hyz]
        · by_cases hyx : y < x
          · simp [hxy, hyx] at hab
          · have hxy2 : x = y := Nat.le_antisymm (Nat.not_lt.mp hyx) (Nat.not_lt.mp hxy)
            subst hxy2
            simp only [hxy, if_neg (lt_irrefl x), if_false] at hab
            by_cases hyz : x < z
            · simp [hyz]
            · by_cases hzy : z < x
              · simp [hyz, hzy] at hbc
              · have : x = z := Nat.le_antisymm (Nat.not_lt.mp hzy) (Nat.not_lt.mp hyz)
                subst this
                simp only [if_neg (lt_irrefl x), if_false] at hbc ⊢
                exact ih ys zs hab hbc

theorem bytesLe_antisymm : ∀ a b : List ℕ,
    bytesLe a b = true → bytesLe b a = true → a = b := by
  intro a
  induction a with
  | nil =>
    intro b _ hba
    cases b with
    | nil => rfl
    | cons y ys => simp [bytesLe] at hba
  | cons x xs ih =>
    intro b hab hba
    cases b with
    | nil => simp [bytesLe] at hab
    | cons y ys =>
      simp only [bytesLe] at hab hba
      by_cases hxy : x < y
      · simp [Nat.not_lt.mpr (le_of_lt hxy), hxy] at hba
      · by_cases hyx : y < x
        · simp [hxy, hyx] at hab
        · have hxy2 : x = y := Nat.le_antisymm (Nat.not_lt.mp hyx) (Nat.not_lt.mp hxy)
          subst hxy2
          simp only [if_neg (lt_irrefl x), if_false] at hab hba
          rw [ih ys hab hba]

/-- A key component is in int32 range. -/
def InRange32 (z : ℤ) : Prop := -2147483648 ≤ z ∧ z < 2147483648

/-- A key is a genuine int32 triple. -/
def KeyInRange (t : Key) : Prop := InRange32 t.1 ∧ InRange32 t.2.1 ∧ InRange32 t.2.2

theorem wrap32_inRange (z : ℤ) : InRange32 (wrap32 z) := by
  unfold InRange32 wrap32
  omega

theorem quantizeColor_inRange (m : Bool) (q : ℚ) (c : Vec3) :
    KeyInRange (quantizeColor m q c) :=
  ⟨wrap32_inRange _, wrap32_inRange _, wrap32_inRange _⟩

theorem defaultKey_inRange : KeyInRange defaultKey := by
  refine ⟨⟨?_, ?_⟩, ⟨?_, ?_⟩, ⟨?_, ?_⟩⟩ <;> norm_num [defaultKey]

set_option maxHeartbeats 1000000 in
theorem packBytes_inj {z₁ z₂ : ℤ} (h₁ : InRange32 z₁) (h₂ : InRange32 z₂)
    (h : packBytes z₁ = packBytes z₂) : z₁ = z₂ := by
  obtain ⟨hl₁, hr₁⟩ := h₁
  obtain ⟨hl₂, hr₂⟩ := h₂
  simp only [packBytes, List.cons.injEq, and_true] at h
  omega

theorem packBytes_length (z : ℤ) : (packBytes z).length = 4 := rfl

theorem packKey_inj {t₁ t₂ : Key} (h₁ : KeyInRange t₁) (h₂ : KeyInRange t₂)
    (h : packKey t₁ = packKey t₂) : t₁ = t₂ := by
  obtain ⟨a₁, b₁, c₁⟩ := t₁
  obtain ⟨a₂, b₂, c₂⟩ := t₂
  simp only [KeyInRange, InRange32] at h₁ h₂
  obtain ⟨ha₁, hb₁, hc₁⟩ := h₁
  obtain ⟨ha₂, hb₂, hc₂⟩ := h₂
  simp only [packKey] at h
  obtain ⟨h12, h3⟩ :=
    List.append_inj h (by simp [List.length_append, packBytes_length])
  obtain ⟨h1, h2⟩ :=
    List.append_inj h12 (by rw [packBytes_length, packBytes_length])
  refine Prod.ext ?_ (Prod.ext ?_ ?_) <;> simp only
  · exact packBytes_inj ha₁ ha₂ h1
  · exact packBytes_inj hb₁ hb₂ h2
  · exact packBytes_inj hc₁ hc₂ h3

theorem keyLeB_total (a b : Key) : keyLeB a b = true ∨ keyLeB b a = true :=
  bytesLe_total _ _

theorem keyLeB_trans {a b c : Key} (hab : keyLeB a b = true) (hbc : keyLeB b c = true) :
    keyLeB a c = true :=
  bytesLe_trans _ _ _ hab hbc

theorem keyLeB_antisymm {a b : Key} (ha : KeyInRange a) (hb : KeyInRange b)
    (hab : keyLeB a b = true) (hba : keyLeB b a = true) : a = b :=
  packKey_inj ha hb (bytesLe_antisymm _ _ hab hba)

/-! ### Counters and mask selection -/

theorem countersAux_length : ∀ (p : Option Key) (c : ℕ) (l : List Key),
    (countersAux p c l).length = l.length := by
  intro p c l
  induction l generalizing p c with
  | nil => cases p <;> rfl
  | cons x xs ih =>
    cases p with
    | none => simpa [countersAux] using ih (some x) 0
    | some q =>
      by_cases hx : x = q
      · simpa [countersAux, hx] using ih (some x) _
      · simpa [countersAux, hx] using ih (some x) 0

theorem intraGroupCounter_length (l : List Key) :
    (intraGroupCounter l).length = l.length :=
  countersAux_length none 0 l

theorem countersAux_reset {x p : Key} (c : ℕ) (xs : List Key) (hx : x ≠ p) :
    countersAux (some p) c (x :: xs) = countersAux none 0 (x :: xs) := by
  simp [countersAux, hx]

theorem countersAux_replicate (a : Key) : ∀ (j c : ℕ) (rest : List Key),
    (rest = [] ∨ ∃ y ys, rest = y :: ys ∧ y ≠ a) →
    countersAux (some a) c (List.replicate j a ++ rest) =
      List.range' (c + 1) j ++ countersAux none 0 rest := by
  intro j
  induction j with
  | zero =>
    intro c rest hrest
    rcases hrest with h | ⟨y, ys, rfl, hy⟩
    · subst h; rfl
    · simpa using countersAux_reset c ys hy
  | succ j ih =>
    intro c rest hrest
    rw [List.replicate_succ, List.cons_append]
    have h1 : countersAux (some a) c (a :: (List.replicate j a ++ rest)) =
        (c + 1) :: countersAux (some a) (c + 1) (List.replicate j a ++ rest) := by
      simp [countersAux]
    rw [h1, ih (c + 1) rest hrest, List.range'_succ, List.cons_append]

theorem intraGroupCounter_run (a : Key) (m : ℕ) (rest : List Key)
    (hrest : rest = [] ∨ ∃ y ys, rest = y :: ys ∧ y ≠ a) :
    intraGroupCounter (List.replicate (m + 1) a ++ rest) =
      List.range (m + 1) ++ intraGroupCounter rest := by
  unfold intraGroupCounter
  rw [List.replicate_succ, List.cons_append]
  show countersAux none 0 (a :: (List.replicate m a ++ rest)) = _
  rw [show countersAux none 0 (a :: (List.replicate m a ++ rest)) =
      0 :: countersAux (some a) 0 (List.replicate m a ++ rest) from rfl]
  rw [countersAux_replicate a m 0 rest hrest, List.range_eq_range', List.range'_succ]
  rfl

theorem maskFilter_append {α : Type} : ∀ (l₁ l₂ : List α) (b₁ b₂ : List Bool),
    l₁.length = b₁.length →
    maskFilter (l₁ ++ l₂) (b₁ ++ b₂) = maskFilter l₁ b₁ ++ maskFilter l₂ b₂ := by
  intro l₁
  induction l₁ with
  | nil =>
    intro l₂ b₁ b₂ h
    have : b₁ = [] := by
      cases b₁ with
      | nil => rfl
      | cons b bs => simp at h
    subst this
    rfl
  | cons x xs ih =>
    intro l₂ b₁ b₂ h
    cases b₁ with
    | nil => simp at h
    | cons b bs =>
      have ihh := ih l₂ bs b₂ (by simpa using h)
      by_cases hb : b = true <;> simp [maskFilter, hb, ihh]

theorem maskFilter_map {α β : Type} (f : α → β) : ∀ (l : List α) (bs : List Bool),
    maskFilter (l.map f) bs = (maskFilter l bs).map f := by
  intro l
  induction l with
  | nil => intro bs; cases bs <;> rfl
  | cons x xs ih =>
    intro bs
    cases bs with
    | nil => rfl
    | cons b bbs =>
      by_cases hb : b = true <;> simp [maskFilter, hb, ih]

theorem maskFilter_sublist {α : Type} : ∀ (l : List α) (bs : List Bool),
    List.Sublist (maskFilter l bs) l := by
  intro l
  induction l with
  | nil => intro bs; cases bs <;> simp [maskFilter]
  | cons x xs ih =>
    intro bs
    cases bs with
    | nil => simp [maskFilter]
    | cons b bbs =>
      by_cases hb : b = true
      · simpa [maskFilter, hb] using (ih bbs).cons₂ x
      · simpa [maskFilter, Bool.eq_false_iff.mpr hb] using (ih bbs).cons x

theorem maskFilter_false {α : Type} : ∀ (l : List α) (bs : List Bool),
    (∀ b ∈ bs, b = false) → maskFilter l bs = [] := by
  intro l
  induction l with
  | nil => intro bs _; cases bs <;> rfl
  | cons x xs ih =>
    intro bs hbs
    cases bs with
    | nil => rfl
    | cons b bbs =>
      have hb : b = false := hbs b (List.mem_cons_self b bbs)
      subst hb
      have h2 : maskFilter (x :: xs) (false :: bbs) = maskFilter xs bbs := by
        simp [maskFilter]
      rw [h2]
      exact ih bbs fun c hc => hbs c (List.mem_cons_of_mem false hc)

theorem decide_int_lt_toNat (k : ℤ) (c : ℕ) :
    decide ((c : ℤ) < k) = decide (c < k.toNat) := by
  simp only [decide_eq_decide]
  omega

theorem maskFilter_replicate_range' {α : Type} (a : α) (K : ℕ) :
    ∀ (j s : ℕ),
      maskFilter (List.replicate j a) ((List.range' s j).map (fun c => decide (c < K))) =
        List.replicate (min j (K - s)) a := by
  intro j
  induction j with
  | zero => intro s; simp [maskFilter]
  | succ j ih =>
    intro s
    rw [List.replicate_succ, List.range'_succ, List.map_cons]
    by_cases hs : s < K
    · have h1 : maskFilter (a :: List.replicate j a)
          (decide (s < K) :: (List.range' (s + 1) j).map (fun c => decide (c < K))) =
          a :: maskFilter (List.replicate j a)
            ((List.range' (s + 1) j).map (fun c => decide (c < K))) := by
        simp [maskFilter, hs]
      rw [h1, ih (s + 1),
        show min (j + 1) (K - s) = min j (K - (s + 1)) + 1 by omega, List.replicate_succ]
    · have h1 : maskFilter (a :: List.replicate j a)
          (decide (s < K) :: (List.range' (s + 1) j).map (fun c => decide (c < K))) =
          maskFilter (List.replicate j a)
            ((List.range' (s + 1) j).map (fun c => decide (c < K))) := by
        simp [maskFilter, hs]
      rw [h1, ih (s + 1), show min j (K - (s + 1)) = 0 by omega,
        show min (j + 1) (K - s) = 0 by omega]

/-! ### Runs in a sorted key list, and the capping count -/

/-- The sortedness predicate for key lists: byte order of packed keys. -/
def KeySorted (l : List Key) : Prop := l.Pairwise (fun u v => keyLeB u v = true)

theorem dropWhile_head_false {α : Type} (p : α → Bool) :
    ∀ (l : List α) (y : α) (ys : List α), l.dropWhile p = y :: ys → p y = false := by
  intro l
  induction l with
  | nil => intro y ys h; simp [List.dropWhile] at h
  | cons x xs ih =>
    intro y ys h
    by_cases hx : p x = true
    · rw [List.dropWhile_cons_of_pos hx] at h
      exact ih y ys h
    · rw [List.dropWhile_cons_of_neg hx] at h
      obtain ⟨rfl, _⟩ := List.cons.injEq .. ▸ h
      exact Bool.eq_false_iff.mpr hx

theorem sorted_run_split (a : Key) (t : List Key)
    (hs : KeySorted (a :: t)) (hr : ∀ x ∈ a :: t, KeyInRange x) :
    ∃ m rest, a :: t = List.replicate (m + 1) a ++ rest ∧ a ∉ rest ∧
      KeySorted rest ∧ (∀ x ∈ rest, KeyInRange x) ∧
      (rest = [] ∨ ∃ y ys, rest = y :: ys ∧ y ≠ a) := by
  classical
  set p : Key → Bool := fun x => decide (x = a) with hp
  refine ⟨(t.takeWhile p).length, t.dropWhile p, ?_, ?_, ?_, ?_, ?_⟩
  · have htw : t.takeWhile p = List.replicate (t.takeWhile p).length a := by
      apply List.eq_replicate_of_mem
      intro b hb
      have := List.mem_takeWhile_imp hb
      simpa [hp] using this
    conv_lhs => rw [← List.takeWhile_append_dropWhile (p := p) (l := t)]
    rw [List.replicate_succ, List.cons_append]
    rw [← htw]
  · -- `a` does not reappear after the initial run
    intro hmem
    have hsub : List.Sublist (t.dropWhile p) t := List.dropWhile_sublist p
    cases hdw : t.dropWhile p with
    | nil => rw [hdw] at hmem; exact (List.not_mem_nil a) hmem
    | cons y ys =>
      have hya : y ≠ a := by
        have := dropWhile_head_false p t y ys hdw
        simpa [hp] using this
      rw [hdw] at hmem
      rcases List.mem_cons.mp hmem with h | h
      · exact hya h.symm
      · -- `a ≤ y` (sorted, y after a) and `y ≤ a` (sorted within rest)
        have hyt : y ∈ t := hsub.subset (hdw ▸ List.mem_cons_self y ys)
        have hay : keyLeB a y = true := by
          have := (List.pairwise_cons.mp hs).1
          exact this y hyt
        have hrest_sorted : KeySorted (y :: ys) :=
          hdw ▸ ((List.pairwise_cons.mp hs).2.sublist hsub)
        have hya2 : keyLeB y a = true := (List.pairwise_cons.mp hrest_sorted).1 a h
        have hy_range : KeyInRange y := hr y (List.mem_cons_of_mem a hyt)
        have ha_range : KeyInRange a := hr a (List.mem_cons_self a t)
        exact hya (keyLeB_antisymm hy_range ha_range hya2 hay)
  · exact (List.pairwise_cons.mp hs).2.sublist (List.dropWhile_sublist p)
  · intro x hx
    exact hr x (List.mem_cons_of_mem a ((List.dropWhile_sublist p).subset hx))
  · cases hdw : t.dropWhile p with
    | nil => exact Or.inl rfl
    | cons y ys =>
      refine Or.inr ⟨y, ys, rfl, ?_⟩
      have := dropWhile_head_false p t y ys hdw
      simpa [hp] using this

theorem capKeep_toNat (k : ℤ) (l : List Key) :
    capKeep k l =
      maskFilter l ((intraGroupCounter l).map (fun c => decide (c < k.toNat))) := by
  unfold capKeep
  rw [show (intraGroupCounter l).map (fun (c : ℕ) => decide ((c : ℤ) < k)) =
      (intraGroupCounter l).map (fun (c : ℕ) => decide (c < k.toNat)) from
    List.map_congr_left fun c _ => decide_int_lt_toNat k c]

/-- On a run decomposition, capping keeps the first `min(run, k)` elements
of the run and recurses. -/
theorem capKeep_run (k : ℤ) (a : Key) (m : ℕ) (rest : List Key)
    (hhead : rest = [] ∨ ∃ y ys, rest = y :: ys ∧ y ≠ a) :
    capKeep k (List.replicate (m + 1) a ++ rest) =
      List.replicate (min (m + 1) (k.toNat - 0)) a ++ capKeep k rest := by
  rw [capKeep_toNat, intraGroupCounter_run a m rest hhead, List.map_append,
    maskFilter_append _ _ _ _ (by simp), List.range_eq_range',
    maskFilter_replicate_range', ← capKeep_toNat]

theorem capKeep_count (k : ℤ) : ∀ (n : ℕ) (l : List Key), l.length ≤ n →
    KeySorted l → (∀ x ∈ l, KeyInRange x) →
    ∀ b, (capKeep k l).count b = min (l.count b) k.toNat := by
  intro n
  induction n with
  | zero =>
    intro l hl _ _ b
    have : l = [] := List.eq_nil_of_length_eq_zero (Nat.le_zero.mp hl)
    subst this
    simp [capKeep, intraGroupCounter, countersAux, maskFilter]
  | succ n ih =>
    intro l hl hs hr b
    cases l with
    | nil => simp [capKeep, intraGroupCounter, countersAux, maskFilter]
    | cons a t =>
      obtain ⟨m, rest, hsplit, hnotmem, hrs, hrr, hhead⟩ := sorted_run_split a t hs hr
      rw [hsplit, capKeep_run k a m rest hhead]
      have hrest_len : rest.length ≤ n := by
        have h' : (a :: t).length = (List.replicate (m + 1) a ++ rest).length :=
          congrArg List.length hsplit
        rw [List.length_append, List.length_replicate] at h'
        omega
      have hrec := ih rest hrest_len hrs hrr b
      rw [List.count_append, List.count_append, hrec]
      by_cases hba : b = a
      · subst hba
        have hcr : rest.count b = 0 := List.count_eq_zero.mpr hnotmem
        rw [hcr, List.count_replicate_self, List.count_replicate_self]
        omega
      · have h1 : (List.replicate (min (m + 1) (k.toNat - 0)) a).count b = 0 :=
          List.count_eq_zero.mpr (by simp [List.mem_replicate, hba])
        have h2 : (List.replicate (m + 1) a).count b = 0 :=
          List.count_eq_zero.mpr (by simp [List.mem_replicate, hba])
        rw [h1, h2]
        omega

theorem dedup_replicate_append (a : Key) (rest : List Key) (hnotmem : a ∉ rest) :
    ∀ j : ℕ, (List.replicate (j + 1) a ++ rest).dedup = a :: rest.dedup := by
  intro j
  induction j with
  | zero =>
    rw [List.replicate_succ, List.replicate_zero, List.cons_append, List.nil_append]
    exact List.dedup_cons_of_not_mem hnotmem
  | succ j ih =>
    rw [List.replicate_succ, List.cons_append]
    rw [List.dedup_cons_of_mem]
    · exact ih
    · exact List.mem_append_left rest (List.mem_replicate.mpr ⟨by omega, rfl⟩)

/-- The capped sorted list has at most `k` elements per distinct key. -/
theorem capKeep_length_le (k : ℤ) : ∀ (n : ℕ) (l : List Key), l.length ≤ n →
    KeySorted l → (∀ x ∈ l, KeyInRange x) →
    (capKeep k l).length ≤ l.dedup.length * k.toNat := by
  intro n
  induction n with
  | zero =>
    intro l hl _ _
    have : l = [] := List.eq_nil_of_length_eq_zero (Nat.le_zero.mp hl)
    subst this
    simp [capKeep, intraGroupCounter, countersAux, maskFilter]
  | succ n ih =>
    intro l hl hs hr
    cases l with
    | nil => simp [capKeep, intraGroupCounter, countersAux, maskFilter]
    | cons a t =>
      obtain ⟨m, rest, hsplit, hnotmem, hrs, hrr, hhead⟩ := sorted_run_split a t hs hr
      rw [hsplit, capKeep_run k a m rest hhead, dedup_replicate_append a rest hnotmem m]
      have hrest_len : rest.length ≤ n := by
        have h' : (a :: t).length = (List.replicate (m + 1) a ++ rest).length :=
          congrArg List.length hsplit
        rw [List.length_append, List.length_replicate] at h'
        omega
      have hrec := ih rest hrest_len hrs hrr
      rw [List.length_append, List.length_replicate, List.length_cons,
        Nat.succ_mul]
      have hmin : min (m + 1) (k.toNat - 0) ≤ k.toNat := by omega
      omega

/-! ### Properties of the sorting pipeline -/

theorem map_getD_range {α : Type} (l : List α) (d : α) :
    (List.range l.length).map (fun i => l.getD i d) = l := by
  apply List.ext_getElem
  · simp
  · intro i h1 h2
    simp only [List.getElem_map, List.getElem_range]
    rw [List.getD_eq_getElem l d h2]

theorem sortOrder_perm (pcd : PointCloud) (q : ℚ) (m : Bool) (s : List ℕ) :
    (sortOrder pcd q m s).Perm (List.range pcd.points.length) :=
  List.perm_insertionSort _ _

theorem sortOrder_sorted (pcd : PointCloud) (q : ℚ) (m : Bool) (s : List ℕ) :
    (sortOrder pcd q m s).Pairwise
      (fun i j => keyLeB ((shuffledKeys pcd q m s).getD i defaultKey)
        ((shuffledKeys pcd q m s).getD j defaultKey) = true) := by
  haveI : IsTotal ℕ (fun i j => keyLeB ((shuffledKeys pcd q m s).getD i defaultKey)
      ((shuffledKeys pcd q m s).getD j defaultKey) = true) :=
    ⟨fun a b => keyLeB_total _ _⟩
  haveI : IsTrans ℕ (fun i j => keyLeB ((shuffledKeys pcd q m s).getD i defaultKey)
      ((shuffledKeys pcd q m s).getD j defaultKey) = true) :=
    ⟨fun _ _ _ => keyLeB_trans⟩
  exact List.sorted_insertionSort _ _

theorem sortedKeys_sorted (pcd : PointCloud) (q : ℚ) (m : Bool) (s : List ℕ) :
    KeySorted (sortedKeys pcd q m s) := by
  unfold KeySorted sortedKeys
  rw [List.pairwise_map]
  exact sortOrder_sorted pcd q m s

theorem quantKeys_getD_inRange (pcd : PointCloud) (q : ℚ) (m : Bool) (i : ℕ) :
    KeyInRange ((quantKeys pcd q m).getD i defaultKey) := by
  by_cases h : i < (quantKeys pcd q m).length
  · rw [List.getD_eq_getElem _ _ h]
    have hmem : (quantKeys pcd q m)[i] ∈ quantKeys pcd q m := List.getElem_mem h
    obtain ⟨c, _, hc⟩ := List.mem_map.mp hmem
    rw [← hc]
    exact quantizeColor_inRange m q c
  · rw [List.getD_eq_default _ _ (Nat.le_of_not_lt h)]
    exact defaultKey_inRange

theorem shuffledKeys_getD_inRange (pcd : PointCloud) (q : ℚ) (m : Bool) (s : List ℕ)
    (p : ℕ) : KeyInRange ((shuffledKeys pcd q m s).getD p defaultKey) := by
  by_cases h : p < (shuffledKeys pcd q m s).length
  · rw [List.getD_eq_getElem _ _ h]
    have hmem : (shuffledKeys pcd q m s)[p] ∈ shuffledKeys pcd q m s := List.getElem_mem h
    obtain ⟨i, _, hi⟩ := List.mem_map.mp hmem
    rw [← hi]
    exact quantKeys_getD_inRange pcd q m i
  · rw [List.getD_eq_default _ _ (Nat.le_of_not_lt h)]
    exact defaultKey_inRange

theorem sortedKeys_inRange (pcd : PointCloud) (q : ℚ) (m : Bool) (s : List ℕ) :
    ∀ x ∈ sortedKeys pcd q m s, KeyInRange x := by
  intro x hx
  obtain ⟨p, _, hp⟩ := List.mem_map.mp hx
  rw [← hp]
  exact shuffledKeys_getD_inRange pcd q m s p

theorem shuffledKeys_perm (pcd : PointCloud) (q : ℚ) (m : Bool) (s : List ℕ)
    (hlen : pcd.points.length = pcd.colors.length)
    (hs : s.Perm (List.range pcd.points.length)) :
    (shuffledKeys pcd q m s).Perm (quantKeys pcd q m) := by
  unfold shuffledKeys
  have h1 : (s.map (fun i => (quantKeys pcd q m).getD i defaultKey)).Perm
      ((List.range pcd.points.length).map
        (fun i => (quantKeys pcd q m).getD i defaultKey)) :=
    hs.map _
  refine h1.trans ?_
  have hlen2 : pcd.points.length = (quantKeys pcd q m).length := by
    simp [quantKeys, hlen]
  rw [hlen2, map_getD_range]

theorem sortedKeys_perm (pcd : PointCloud) (q : ℚ) (m : Bool) (s : List ℕ)
    (hlen : pcd.points.length = pcd.colors.length)
    (hs : s.Perm (List.range pcd.points.length)) :
    (sortedKeys pcd q m s).Perm (quantKeys pcd q m) := by
  refine List.Perm.trans ?_ (shuffledKeys_perm pcd q m s hlen hs)
  unfold sortedKeys
  have h1 : ((sortOrder pcd q m s).map
      (fun p => (shuffledKeys pcd q m s).getD p defaultKey)).Perm
      ((List.range pcd.points.length).map
        (fun p => (shuffledKeys pcd q m s).getD p defaultKey)) :=
    (sortOrder_perm pcd q m s).map _
  refine h1.trans ?_
  have hlen2 : pcd.points.length = (shuffledKeys pcd q m s).length := by
    simp [shuffledKeys, hs.length_eq]
  rw [hlen2, map_getD_range]

theorem sortedKeys_length (pcd : PointCloud) (q : ℚ) (m : Bool) (s : List ℕ) :
    (sortedKeys pcd q m s).length = pcd.points.length := by
  unfold sortedKeys
  rw [List.length_map, (sortOrder_perm pcd q m s).length_eq, List.length_range]

theorem mem_sortOrder_lt (pcd : PointCloud) (q : ℚ) (m : Bool) (s : List ℕ)
    {p : ℕ} (hp : p ∈ sortOrder pcd q m s) : p < pcd.points.length := by
  have := (sortOrder_perm pcd q m s).subset hp
  exact List.mem_range.mp this

/-- The bin keys of the selected output indices are exactly the capped
sorted key list. -/
theorem finalKeys_eq (pcd : PointCloud) (k : ℤ) (q : ℚ) (m : Bool) (s : List ℕ)
    (hs : s.Perm (List.range pcd.points.length)) :
    (finalOriginalIndices pcd k q m s).map
      (fun j => (quantKeys pcd q m).getD j defaultKey) =
    capKeep k (sortedKeys pcd q m s) := by
  unfold finalOriginalIndices capKeep keepMask
  rw [List.map_map]
  have hslen : s.length = pcd.points.length := by rw [hs.length_eq, List.length_range]
  have hcongr : ∀ p ∈ maskFilter (sortOrder pcd q m s)
      ((intraGroupCounter (sortedKeys pcd q m s)).map (fun (c : ℕ) => decide ((c : ℤ) < k))),
      ((fun j => (quantKeys pcd q m).getD j defaultKey) ∘ (fun p => s.getD p 0)) p =
        (shuffledKeys pcd q m s).getD p defaultKey := by
    intro p hp
    have hpo : p ∈ sortOrder pcd q m s := (maskFilter_sublist _ _).subset hp
    have hplt : p < s.length := hslen ▸ mem_sortOrder_lt pcd q m s hpo
    have h1 : (shuffledKeys pcd q m s).getD p defaultKey
        = (quantKeys pcd q m).getD (s.getD p 0) defaultKey := by
      unfold shuffledKeys
      rw [List.getD_eq_getElem (s.map fun i => (quantKeys pcd q m).getD i defaultKey)
        defaultKey (by simpa using hplt)]
      rw [List.getElem_map]
      rw [List.getD_eq_getElem s 0 hplt]
    simp only [Function.comp_apply]
    rw [h1]
  rw [List.map_congr_left hcongr]
  rw [← maskFilter_map]
  rfl

/-- What the mask keeps of the sort order, mapped through the shuffle, is a
subsequence of a permutation of all original indices. -/
theorem finalOriginalIndices_mem (pcd : PointCloud) (k : ℤ) (q : ℚ) (m : Bool)
    (s : List ℕ) (hs : s.Perm (List.range pcd.points.length)) :
    ∀ j ∈ finalOriginalIndices pcd k q m s, j < pcd.points.length := by
  intro j hj
  obtain ⟨p, hp, hpj⟩ := List.mem_map.mp hj
  have hpo : p ∈ sortOrder pcd q m s := (maskFilter_sublist _ _).subset hp
  have hplt : p < s.length := by
    rw [hs.length_eq, List.length_range]
    exact mem_sortOrder_lt pcd q m s hpo
  have : s.getD p 0 ∈ s := by
    rw [List.getD_eq_getElem _ _ hplt]
    exact List.getElem_mem hplt
  rw [← hpj]
  exact List.mem_range.mp (hs.subset this)

/-! ### The group-start view of the code's grouping -/

/-- `group_starts_expanded = np.repeat(unique_indices, unique_counts)`:
the start of the run a sorted position belongs to, recovered (as the code
does) as position minus intra-group counter. -/
def groupStart (l : List Key) (p : ℕ) : ℕ := p - (intraGroupCounter l).getD p 0

theorem countersAux_getD_le : ∀ (l : List Key) (pv : Key) (c i : ℕ),
    (countersAux (some pv) c l).getD i 0 ≤ c + 1 + i := by
  intro l
  induction l with
  | nil => intro pv c i; simp [countersAux]
  | cons x xs ih =>
    intro pv c i
    by_cases hx : x = pv
    · rw [show countersAux (some pv) c (x :: xs) =
          (c + 1) :: countersAux (some x) (c + 1) xs from by simp [countersAux, hx]]
      cases i with
      | zero => simp
      | succ i =>
        rw [List.getD_cons_succ]
        have := ih x (c + 1) i
        omega
    · rw [show countersAux (some pv) c (x :: xs) =
          0 :: countersAux (some x) 0 xs from by simp [countersAux, hx]]
      cases i with
      | zero => simp
      | succ i =>
        rw [List.getD_cons_succ]
        have := ih x 0 i
        omega

theorem intraGroupCounter_getD_le (l : List Key) (i : ℕ) :
    (intraGroupCounter l).getD i 0 ≤ i := by
  cases l with
  | nil => simp [intraGroupCounter, countersAux]
  | cons x xs =>
    rw [show intraGroupCounter (x :: xs) = 0 :: countersAux (some x) 0 xs from rfl]
    cases i with
    | zero => simp
    | succ i =>
      rw [List.getD_cons_succ]
      have := countersAux_getD_le xs x 0 i
      omega

theorem getD_range_lt (n p : ℕ) (h : p < n) : (List.range n).getD p 0 = p := by
  rw [List.getD_eq_getElem _ _ (by simpa using h), List.getElem_range]

theorem getD_replicate {α : Type} (a d : α) (n p : ℕ) (h : p < n) :
    (List.replicate n a).getD p d = a := by
  rw [List.getD_eq_getElem _ _ (by simpa using h)]
  exact List.getElem_replicate ..

/-- In a sorted key list, two positions have the same group start iff they
hold equal keys. -/
theorem groupStart_iff : ∀ (n : ℕ) (l : List Key), l.length ≤ n →
    KeySorted l → (∀ x ∈ l, KeyInRange x) → ∀ p p', p < l.length → p' < l.length →
    (groupStart l p = groupStart l p' ↔
      l.getD p defaultKey = l.getD p' defaultKey) := by
  intro n
  induction n with
  | zero =>
    intro l hl _ _ p p' hp _
    omega
  | succ n ih =>
    intro l hl hs hr p p' hp hp'
    cases l with
    | nil => simp at hp
    | cons a t =>
      obtain ⟨m, rest, hsplit, hnotmem, hrs, hrr, hhead⟩ := sorted_run_split a t hs hr
      have hlen : (a :: t).length = (m + 1) + rest.length := by
        rw [hsplit, List.length_append, List.length_replicate]
      have hcnt : intraGroupCounter (a :: t) =
          List.range (m + 1) ++ intraGroupCounter rest := by
        rw [hsplit]
        exact intraGroupCounter_run a m rest hhead
      have hrange_len : (List.range (m + 1)).length = m + 1 := List.length_range _
      -- characterize both sides of a position, by whether it is in the run
      have fact_lo : ∀ u, u < (a :: t).length → u < m + 1 →
          groupStart (a :: t) u = 0 ∧ (a :: t).getD u defaultKey = a := by
        intro u hu hu2
        constructor
        · unfold groupStart
          rw [hcnt, List.getD_append _ _ _ _ (by omega), getD_range_lt _ _ hu2]
          omega
        · rw [hsplit, List.getD_append _ _ _ _ (by simp; omega),
            getD_replicate _ _ _ _ hu2]
      have fact_hi : ∀ u, u < (a :: t).length → m + 1 ≤ u →
          groupStart (a :: t) u = (m + 1) + groupStart rest (u - (m + 1)) ∧
          (a :: t).getD u defaultKey = rest.getD (u - (m + 1)) defaultKey := by
        intro u hu hu2
        constructor
        · unfold groupStart
          rw [hcnt, List.getD_append_right _ _ _ _ (by omega), hrange_len]
          have := intraGroupCounter_getD_le rest (u - (m + 1))
          omega
        · rw [hsplit, List.getD_append_right _ _ _ _ (by simp; omega),
            List.length_replicate]
      have hrest_ne_a : ∀ r, r < rest.length → rest.getD r defaultKey ≠ a := by
        intro r hr2 heq
        apply hnotmem
        rw [← heq, List.getD_eq_getElem _ _ hr2]
        exact List.getElem_mem hr2
      have hrest_len : rest.length ≤ n := by omega
      by_cases h1 : p < m + 1
      · by_cases h2 : p' < m + 1
        · obtain ⟨g1, k1⟩ := fact_lo p hp h1
          obtain ⟨g2, k2⟩ := fact_lo p' hp' h2
          rw [g1, g2, k1, k2]
          simp
        · obtain ⟨g1, k1⟩ := fact_lo p hp h1
          obtain ⟨g2, k2⟩ := fact_hi p' hp' (by omega)
          rw [g1, g2, k1, k2]
          have hne := hrest_ne_a (p' - (m + 1)) (by omega)
          constructor
          · intro h; omega
          · intro h; exact absurd h.symm hne
      · by_cases h2 : p' < m + 1
        · obtain ⟨g1, k1⟩ := fact_hi p hp (by omega)
          obtain ⟨g2, k2⟩ := fact_lo p' hp' h2
          rw [g1, g2, k1, k2]
          have hne := hrest_ne_a (p - (m + 1)) (by omega)
          constructor
          · intro h; omega
          · intro h; exact absurd h hne
        · obtain ⟨g1, k1⟩ := fact_hi p hp (by omega)
          obtain ⟨g2, k2⟩ := fact_hi p' hp' (by omega)
          rw [g1, g2, k1, k2]
          have hrec := ih rest hrest_len hrs hrr (p - (m + 1)) (p' - (m + 1))
            (by omega) (by omega)
          constructor
          · intro h
            exact hrec.mp (by omega)
          · intro h
            have := hrec.mpr h
            omega

theorem perm_count_eq {α : Type} [BEq α] {l₁ l₂ : List α} (h : l₁.Perm l₂) (a : α) :
    l₁.count a = l₂.count a := by
  unfold List.count
  exact h.countP_eq _

/-! ### Claim theorems -/

/-- Claim C7: for every cloud whose points sequence is empty,
`prism_sampling` returns the cloud unchanged, for every `k`, quantization
and chromaticity flag and every RNG state — a no-op, not an error. -/
theorem prism_sampling_empty_id (pcd : PointCloud) (k : ℤ) (q : ℚ) (m : Bool)
    (s : List ℕ) (h : pcd.points.length = 0) :
    prism_sampling pcd k q m s = pcd := by
  unfold prism_sampling
  rw [if_pos h]

/-- Witness for C7 at a concrete empty cloud. -/
theorem prism_sampling_empty_id_witness :
    (⟨[], [⟨1, 0, 0⟩], none⟩ : PointCloud).points.length = 0 ∧
    prism_sampling ⟨[], [⟨1, 0, 0⟩], none⟩ 3 (1 / 2) true [] =
      ⟨[], [⟨1, 0, 0⟩], none⟩ :=
  ⟨rfl, prism_sampling_empty_id ⟨[], [⟨1, 0, 0⟩], none⟩ 3 (1 / 2) true [] rfl⟩

/-- Claim C3 (evaluation): calling `prism_sampling` with the invalid
capacity `k = 0` does not raise any error and simply returns a point
cloud (here: the empty one) — the misconfiguration is silently absorbed,
contradicting the spec's "reported to the caller before any computation
begins". -/
theorem prism_sampling_invalid_k_silent :
    prism_sampling ⟨[⟨0, 0, 0⟩], [⟨1, 0, 0⟩], none⟩ 0 1 true [0] =
      ⟨[], [], none⟩ := by decide

/-- Claim C10: for every non-empty cloud and `k ≤ 0`, `prism_sampling`
returns a cloud with no points (and no colors/normals): the keep
condition `intra_group_counter < k` holds nowhere, so the documented
`k < 1` misconfiguration silently yields an empty output. -/
theorem prism_sampling_nonpos_k_empty (pcd : PointCloud) (k : ℤ) (q : ℚ)
    (m : Bool) (s : List ℕ) (hne : pcd.points.length ≠ 0) (hk : k ≤ 0) :
    (prism_sampling pcd k q m s).points = [] ∧
    (prism_sampling pcd k q m s).colors = [] ∧
    (prism_sampling pcd k q m s).normals =
      pcd.normals.map (fun _ => ([] : List Vec3)) := by
  have hmask : ∀ b ∈ keepMask pcd k q m s, b = false := by
    intro b hb
    obtain ⟨c, _, hc⟩ := List.mem_map.mp hb
    rw [← hc, decide_eq_false_iff_not]
    omega
  have hfin : finalOriginalIndices pcd k q m s = [] := by
    unfold finalOriginalIndices
    rw [maskFilter_false _ _ hmask]
    rfl
  unfold prism_sampling
  rw [if_neg hne]
  refine ⟨by simp [hfin], by simp [hfin], ?_⟩
  cases hn : pcd.normals <;> simp [hn, hfin]

/-- Witness for C10 at a concrete one-point cloud with `k = 0`. -/
theorem prism_sampling_nonpos_k_empty_witness :
    (⟨[⟨0, 0, 0⟩], [⟨1, 0, 0⟩], none⟩ : PointCloud).points.length ≠ 0 ∧ (0 : ℤ) ≤ 0 ∧
    ((prism_sampling ⟨[⟨0, 0, 0⟩], [⟨1, 0, 0⟩], none⟩ 0 1 true [0]).points = [] ∧
      (prism_sampling ⟨[⟨0, 0, 0⟩], [⟨1, 0, 0⟩], none⟩ 0 1 true [0]).colors = [] ∧
      (prism_sampling ⟨[⟨0, 0, 0⟩], [⟨1, 0, 0⟩], none⟩ 0 1 true [0]).normals =
        (⟨[⟨0, 0, 0⟩], [⟨1, 0, 0⟩], none⟩ : PointCloud).normals.map
          (fun _ => ([] : List Vec3))) :=
  ⟨by decide, le_refl 0,
    prism_sampling_nonpos_k_empty ⟨[⟨0, 0, 0⟩], [⟨1, 0, 0⟩], none⟩ 0 1 true [0]
      (by decide) (le_refl 0)⟩

/-- Claim C9: the chromaticity denominator `sum + 1e-6` is strictly
positive for every color with non-negative components (including pure
black), so the normalizing division never divides by zero. -/
theorem chromaDenom_pos (c : Vec3) (hx : 0 ≤ c.x) (hy : 0 ≤ c.y) (hz : 0 ≤ c.z) :
    0 < chromaDenom c ∧ chromaDenom c ≠ 0 := by
  have h : 0 < chromaDenom c := by
    unfold chromaDenom
    linarith
  exact ⟨h, ne_of_gt h⟩

/-- Witness for C9 at pure black `(0,0,0)`. -/
theorem chromaDenom_pos_witness :
    (0 : ℚ) ≤ 0 ∧ 0 < chromaDenom ⟨0, 0, 0⟩ ∧ chromaDenom ⟨0, 0, 0⟩ ≠ 0 :=
  ⟨le_refl 0, chromaDenom_pos ⟨0, 0, 0⟩ (le_refl 0) (le_refl 0) (le_refl 0)⟩

/-- Claim C4: the sampler's output is a deterministic function of the
input, the parameters and the RNG state (the shuffled index list): equal
states give equal outputs; and for an arbitrary RNG state that is a
permutation of `range N`, every bin still contributes at most `k` points
to the output. -/
theorem prism_sampling_deterministic (pcd : PointCloud) (k : ℤ) (q : ℚ) (m : Bool)
    (s₁ s₂ : List ℕ) (b : Key) (hident : s₁ = s₂)
    (hs : s₁.Perm (List.range pcd.points.length)) :
    prism_sampling pcd k q m s₁ = prism_sampling pcd k q m s₂ ∧
    ((finalOriginalIndices pcd k q m s₁).map
      (fun j => (quantKeys pcd q m).getD j defaultKey)).count b ≤ k.toNat := by
  subst hident
  refine ⟨rfl, ?_⟩
  rw [finalKeys_eq pcd k q m s₁ hs]
  rw [capKeep_count k (sortedKeys pcd q m s₁).length _ (le_refl _)
    (sortedKeys_sorted pcd q m s₁) (sortedKeys_inRange pcd q m s₁) b]
  exact min_le_right _ _

/-- Witness for C4 at a concrete one-point cloud. -/
theorem prism_sampling_deterministic_witness :
    prism_sampling ⟨[⟨1, 2, 3⟩], [⟨1, 0, 0⟩], none⟩ 1 1 true [0] =
      prism_sampling ⟨[⟨1, 2, 3⟩], [⟨1, 0, 0⟩], none⟩ 1 1 true [0] ∧
    ((finalOriginalIndices ⟨[⟨1, 2, 3⟩], [⟨1, 0, 0⟩], none⟩ 1 1 true [0]).map
      (fun j =>
        (quantKeys ⟨[⟨1, 2, 3⟩], [⟨1, 0, 0⟩], none⟩ 1 true).getD j defaultKey)).count
      (0, 0, 0) ≤ (1 : ℤ).toNat :=
  prism_sampling_deterministic ⟨[⟨1, 2, 3⟩], [⟨1, 0, 0⟩], none⟩ 1 1 true [0] [0]
    (0, 0, 0) rfl (by decide)

/-- Claim C1: with aligned non-empty input, `k ≥ 1` and any RNG
permutation, each quantized color bin `b` of the input contributes
exactly `min(k, bin size)` (distinct) points to the output of
`prism_sampling`; consequently the output size is at most `N` and at most
`(number of distinct bins) * k`. -/
theorem prism_sampling_bin_cap (pcd : PointCloud) (k : ℤ) (q : ℚ) (m : Bool)
    (s : List ℕ) (b : Key)
    (hlen : pcd.points.length = pcd.colors.length)
    (hne : pcd.points.length ≠ 0) (hk : 1 ≤ k)
    (hs : s.Perm (List.range pcd.points.length)) :
    ((finalOriginalIndices pcd k q m s).map
        (fun j => (quantKeys pcd q m).getD j defaultKey)).count b =
      min ((quantKeys pcd q m).count b) k.toNat ∧
    (finalOriginalIndices pcd k q m s).Nodup ∧
    (prism_sampling pcd k q m s).points.length ≤ pcd.points.length ∧
    (prism_sampling pcd k q m s).points.length ≤
      (quantKeys pcd q m).dedup.length * k.toNat := by
  have hcap : ∀ x : Key, (capKeep k (sortedKeys pcd q m s)).count x =
      min ((sortedKeys pcd q m s).count x) k.toNat := fun x =>
    capKeep_count k (sortedKeys pcd q m s).length _ (le_refl _)
      (sortedKeys_sorted pcd q m s) (sortedKeys_inRange pcd q m s) x
  have hslen : s.length = pcd.points.length := by
    rw [hs.length_eq, List.length_range]
  refine ⟨?_, ?_, ?_, ?_⟩
  · rw [finalKeys_eq pcd k q m s hs, hcap b,
      perm_count_eq (sortedKeys_perm pcd q m s hlen hs) b]
  · -- the selected original indices are pairwise distinct
    have hnodS : (sortOrder pcd q m s).Nodup :=
      (sortOrder_perm pcd q m s).nodup_iff.mpr (List.nodup_range _)
    have hnodM : (maskFilter (sortOrder pcd q m s)
        (keepMask pcd k q m s)).Nodup :=
      (maskFilter_sublist _ _).nodup hnodS
    have hnods : s.Nodup := hs.nodup_iff.mpr (List.nodup_range _)
    apply hnodM.map_on
    intro p₁ hp₁ p₂ hp₂ heq
    have hlt₁ : p₁ < s.length :=
      hslen ▸ mem_sortOrder_lt pcd q m s ((maskFilter_sublist _ _).subset hp₁)
    have hlt₂ : p₂ < s.length :=
      hslen ▸ mem_sortOrder_lt pcd q m s ((maskFilter_sublist _ _).subset hp₂)
    rw [List.getD_eq_getElem s 0 hlt₁, List.getD_eq_getElem s 0 hlt₂] at heq
    have := (hnods.get_inj_iff (i := ⟨p₁, hlt₁⟩) (j := ⟨p₂, hlt₂⟩)).mp (by simpa using heq)
    simpa using congrArg Fin.val this
  · unfold prism_sampling
    rw [if_neg hne]
    simp only [List.length_map]
    unfold finalOriginalIndices
    rw [List.length_map]
    calc (maskFilter (sortOrder pcd q m s) (keepMask pcd k q m s)).length
        ≤ (sortOrder pcd q m s).length := (maskFilter_sublist _ _).length_le
      _ = pcd.points.length := by rw [(sortOrder_perm pcd q m s).length_eq, List.length_range]
  · have hfl : (finalOriginalIndices pcd k q m s).length =
        (capKeep k (sortedKeys pcd q m s)).length := by
      have h := congrArg List.length (finalKeys_eq pcd k q m s hs)
      simpa using h
    have hout : (prism_sampling pcd k q m s).points.length =
        (finalOriginalIndices pcd k q m s).length := by
      unfold prism_sampling
      rw [if_neg hne]
      simp
    have hlen_le := capKeep_length_le k (sortedKeys pcd q m s).length _ (le_refl _)
      (sortedKeys_sorted pcd q m s) (sortedKeys_inRange pcd q m s)
    have hded : (sortedKeys pcd q m s).dedup.length =
        (quantKeys pcd q m).dedup.length :=
      ((sortedKeys_perm pcd q m s hlen hs).dedup).length_eq
    rw [hout, hfl]
    rw [hded] at hlen_le
    exact hlen_le

/-- Witness for C1 at a concrete two-point cloud with equal colors. -/
theorem prism_sampling_bin_cap_witness :
    ((finalOriginalIndices ⟨[⟨0, 0, 0⟩, ⟨1, 1, 1⟩], [⟨1, 0, 0⟩, ⟨1, 0, 0⟩], none⟩
        1 1 true [1, 0]).map
      (fun j => (quantKeys ⟨[⟨0, 0, 0⟩, ⟨1, 1, 1⟩], [⟨1, 0, 0⟩, ⟨1, 0, 0⟩], none⟩
        1 true).getD j defaultKey)).count (0, 0, 0) =
      min ((quantKeys ⟨[⟨0, 0, 0⟩, ⟨1, 1, 1⟩], [⟨1, 0, 0⟩, ⟨1, 0, 0⟩], none⟩
        1 true).count (0, 0, 0)) (1 : ℤ).toNat ∧
    (finalOriginalIndices ⟨[⟨0, 0, 0⟩, ⟨1, 1, 1⟩], [⟨1, 0, 0⟩, ⟨1, 0, 0⟩], none⟩
      1 1 true [1, 0]).Nodup ∧
    (prism_sampling ⟨[⟨0, 0, 0⟩, ⟨1, 1, 1⟩], [⟨1, 0, 0⟩, ⟨1, 0, 0⟩], none⟩
      1 1 true [1, 0]).points.length ≤
      (⟨[⟨0, 0, 0⟩, ⟨1, 1, 1⟩], [⟨1, 0, 0⟩, ⟨1, 0, 0⟩], none⟩ : PointCloud).points.length ∧
    (prism_sampling ⟨[⟨0, 0, 0⟩, ⟨1, 1, 1⟩], [⟨1, 0, 0⟩, ⟨1, 0, 0⟩], none⟩
      1 1 true [1, 0]).points.length ≤
      (quantKeys ⟨[⟨0, 0, 0⟩, ⟨1, 1, 1⟩], [⟨1, 0, 0⟩, ⟨1, 0, 0⟩], none⟩
        1 true).dedup.length * (1 : ℤ).toNat :=
  prism_sampling_bin_cap ⟨[⟨0, 0, 0⟩, ⟨1, 1, 1⟩], [⟨1, 0, 0⟩, ⟨1, 0, 0⟩], none⟩
    1 1 true [1, 0] (0, 0, 0) (by decide) (by decide) (by decide) (by decide)

/-- Claim C2: every output point of `prism_sampling` is gathered from a
single shared input index: position `p` of the output carries the
position, color and (when present) normal of input index
`finalOriginalIndices.getD p`, with no interpolation or synthesis, and
the output's parallel sequences remain index-aligned. -/
theorem prism_sampling_subset (pcd : PointCloud) (k : ℤ) (q : ℚ) (m : Bool)
    (s : List ℕ) (p : ℕ)
    (hlen : pcd.points.length = pcd.colors.length)
    (hs : s.Perm (List.range pcd.points.length))
    (hp : p < (prism_sampling pcd k q m s).points.length) :
    (prism_sampling pcd k q m s).points.length =
      (prism_sampling pcd k q m s).colors.length ∧
    (prism_sampling pcd k q m s).normals.isSome = pcd.normals.isSome ∧
    (pcd.normals.isSome = true →
      ((prism_sampling pcd k q m s).normals.getD []).length =
        (prism_sampling pcd k q m s).points.length) ∧
    (finalOriginalIndices pcd k q m s).getD p 0 < pcd.points.length ∧
    (prism_sampling pcd k q m s).points.getD p defaultVec =
      pcd.points.getD ((finalOriginalIndices pcd k q m s).getD p 0) defaultVec ∧
    (prism_sampling pcd k q m s).colors.getD p defaultVec =
      pcd.colors.getD ((finalOriginalIndices pcd k q m s).getD p 0) defaultVec ∧
    ((prism_sampling pcd k q m s).normals.getD []).getD p defaultVec =
      (pcd.normals.getD []).getD
        ((finalOriginalIndices pcd k q m s).getD p 0) defaultVec := by
  by_cases hN : pcd.points.length = 0
  · exfalso
    have hid : prism_sampling pcd k q m s = pcd := by
      unfold prism_sampling
      rw [if_pos hN]
    rw [hid, hN] at hp
    omega
  · have hpts : (prism_sampling pcd k q m s).points =
        (finalOriginalIndices pcd k q m s).map (fun j => pcd.points.getD j defaultVec) := by
      unfold prism_sampling
      rw [if_neg hN]
    have hcols : (prism_sampling pcd k q m s).colors =
        (finalOriginalIndices pcd k q m s).map (fun j => pcd.colors.getD j defaultVec) := by
      unfold prism_sampling
      rw [if_neg hN]
    have hp' : p < (finalOriginalIndices pcd k q m s).length := by
      rw [hpts, List.length_map] at hp
      exact hp
    have hj : (finalOriginalIndices pcd k q m s).getD p 0 < pcd.points.length := by
      apply finalOriginalIndices_mem pcd k q m s hs
      rw [List.getD_eq_getElem _ _ hp']
      exact List.getElem_mem hp'
    refine ⟨?_, ?_, ?_, hj, ?_, ?_, ?_⟩
    · rw [hpts, hcols, List.length_map, List.length_map]
    · cases hn : pcd.normals with
      | none => unfold prism_sampling; rw [if_neg hN]; simp [hn]
      | some ns => unfold prism_sampling; rw [if_neg hN]; simp [hn]
    · intro hsome
      cases hn : pcd.normals with
      | none => rw [hn] at hsome; simp at hsome
      | some ns =>
        have hnorm : (prism_sampling pcd k q m s).normals =
            some ((finalOriginalIndices pcd k q m s).map
              (fun j => ns.getD j defaultVec)) := by
          unfold prism_sampling
          rw [if_neg hN]
          simp [hn]
        rw [hnorm, hpts, Option.getD_some, List.length_map, List.length_map]
    · rw [hpts, List.getD_eq_getElem _ _ (by simpa using hp'), List.getElem_map,
        List.getD_eq_getElem _ 0 hp']
    · rw [hcols, List.getD_eq_getElem _ _ (by simpa using hp'), List.getElem_map,
        List.getD_eq_getElem _ 0 hp']
    · cases hn : pcd.normals with
      | none =>
        have hnorm : (prism_sampling pcd k q m s).normals = none := by
          unfold prism_sampling
          rw [if_neg hN]
          simp [hn]
        rw [hnorm]
        simp
      | some ns =>
        have hnorm : (prism_sampling pcd k q m s).normals =
            some ((finalOriginalIndices pcd k q m s).map
              (fun j => ns.getD j defaultVec)) := by
          unfold prism_sampling
          rw [if_neg hN]
          simp [hn]
        rw [hnorm, Option.getD_some,
          List.getD_eq_getElem _ _ (by simpa using hp'), List.getElem_map,
          List.getD_eq_getElem _ 0 hp', Option.getD_some]

/-- Witness for C2 at a concrete one-point cloud carrying a normal. -/
theorem prism_sampling_subset_witness :
    (prism_sampling ⟨[⟨1, 2, 3⟩], [⟨1, 0, 0⟩], some [⟨0, 0, 1⟩]⟩ 1 1 true [0]).points.length =
      (prism_sampling ⟨[⟨1, 2, 3⟩], [⟨1, 0, 0⟩], some [⟨0, 0, 1⟩]⟩ 1 1 true [0]).colors.length ∧
    (prism_sampling ⟨[⟨1, 2, 3⟩], [⟨1, 0, 0⟩], some [⟨0, 0, 1⟩]⟩ 1 1 true [0]).normals.isSome =
      (⟨[⟨1, 2, 3⟩], [⟨1, 0, 0⟩], some [⟨0, 0, 1⟩]⟩ : PointCloud).normals.isSome ∧
    ((⟨[⟨1, 2, 3⟩], [⟨1, 0, 0⟩], some [⟨0, 0, 1⟩]⟩ : PointCloud).normals.isSome = true →
      ((prism_sampling ⟨[⟨1, 2, 3⟩], [⟨1, 0, 0⟩], some [⟨0, 0, 1⟩]⟩ 1 1 true [0]).normals.getD []).length =
        (prism_sampling ⟨[⟨1, 2, 3⟩], [⟨1, 0, 0⟩], some [⟨0, 0, 1⟩]⟩ 1 1 true [0]).points.length) ∧
    (finalOriginalIndices ⟨[⟨1, 2, 3⟩], [⟨1, 0, 0⟩], some [⟨0, 0, 1⟩]⟩ 1 1 true [0]).getD 0 0 <
      (⟨[⟨1, 2, 3⟩], [⟨1, 0, 0⟩], some [⟨0, 0, 1⟩]⟩ : PointCloud).points.length ∧
    (prism_sampling ⟨[⟨1, 2, 3⟩], [⟨1, 0, 0⟩], some [⟨0, 0, 1⟩]⟩ 1 1 true [0]).points.getD 0 defaultVec =
      (⟨[⟨1, 2, 3⟩], [⟨1, 0, 0⟩], some [⟨0, 0, 1⟩]⟩ : PointCloud).points.getD
        ((finalOriginalIndices ⟨[⟨1, 2, 3⟩], [⟨1, 0, 0⟩], some [⟨0, 0, 1⟩]⟩ 1 1 true [0]).getD 0 0) defaultVec ∧
    (prism_sampling ⟨[⟨1, 2, 3⟩], [⟨1, 0, 0⟩], some [⟨0, 0, 1⟩]⟩ 1 1 true [0]).colors.getD 0 defaultVec =
      (⟨[⟨1, 2, 3⟩], [⟨1, 0, 0⟩], some [⟨0, 0, 1⟩]⟩ : PointCloud).colors.getD
        ((finalOriginalIndices ⟨[⟨1, 2, 3⟩], [⟨1, 0, 0⟩], some [⟨0, 0, 1⟩]⟩ 1 1 true [0]).getD 0 0) defaultVec ∧
    ((prism_sampling ⟨[⟨1, 2, 3⟩], [⟨1, 0, 0⟩], some [⟨0, 0, 1⟩]⟩ 1 1 true [0]).normals.getD []).getD 0 defaultVec =
      ((⟨[⟨1, 2, 3⟩], [⟨1, 0, 0⟩], some [⟨0, 0, 1⟩]⟩ : PointCloud).normals.getD []).getD
        ((finalOriginalIndices ⟨[⟨1, 2, 3⟩], [⟨1, 0, 0⟩], some [⟨0, 0, 1⟩]⟩ 1 1 true [0]).getD 0 0) defaultVec :=
  prism_sampling_subset ⟨[⟨1, 2, 3⟩], [⟨1, 0, 0⟩], some [⟨0, 0, 1⟩]⟩ 1 1 true [0] 0
    (by decide) (by decide) (by decide)

/-- Claim C5: the grouping step partitions the point indices: equality of
the packed composite key coincides with component-wise equality of the
int32 triple; two sorted positions lie in the same group (same recovered
group start) iff their quantized triples are equal; group membership
counts are invariant under permuting the input colors; and each original
index appears exactly once across the groups formed by the sort. -/
theorem prism_sampling_grouping (pcd : PointCloud) (q : ℚ) (m : Bool) (s : List ℕ)
    (t₁ t₂ : Key) (p p' : ℕ) (colors₂ : List Vec3) (b : Key) (j : ℕ)
    (ht₁ : KeyInRange t₁) (ht₂ : KeyInRange t₂)
    (hp : p < (sortedKeys pcd q m s).length)
    (hp' : p' < (sortedKeys pcd q m s).length)
    (hperm : pcd.colors.Perm colors₂)
    (hs : s.Perm (List.range pcd.points.length))
    (hj : j < pcd.points.length) :
    (packKey t₁ = packKey t₂ ↔ t₁ = t₂) ∧
    (groupStart (sortedKeys pcd q m s) p = groupStart (sortedKeys pcd q m s) p' ↔
      (sortedKeys pcd q m s).getD p defaultKey =
        (sortedKeys pcd q m s).getD p' defaultKey) ∧
    (pcd.colors.map (quantizeColor m q)).count b =
      (colors₂.map (quantizeColor m q)).count b ∧
    ((sortOrder pcd q m s).map (fun i => s.getD i 0)).count j = 1 := by
  have hslen : s.length = pcd.points.length := by
    rw [hs.length_eq, List.length_range]
  refine ⟨⟨fun h => packKey_inj ht₁ ht₂ h, fun h => by rw [h]⟩, ?_, ?_, ?_⟩
  · exact groupStart_iff (sortedKeys pcd q m s).length _ (le_refl _)
      (sortedKeys_sorted pcd q m s) (sortedKeys_inRange pcd q m s) p p' hp hp'
  · exact perm_count_eq (hperm.map _) b
  · have h2 : (List.range pcd.points.length).map (fun i => s.getD i 0) = s := by
      rw [← hslen]
      exact map_getD_range s 0
    have h1 : ((sortOrder pcd q m s).map (fun i => s.getD i 0)).Perm s := by
      refine List.Perm.trans ((sortOrder_perm pcd q m s).map _) ?_
      rw [h2]
    rw [perm_count_eq (h1.trans hs) j]
    exact List.count_eq_one_of_mem (List.nodup_range _) (List.mem_range.mpr hj)

/-- Witness for C5 at a concrete two-point cloud with distinct colors. -/
theorem prism_sampling_grouping_witness :
    (packKey (0, 0, 0) = packKey (0, 0, 0) ↔ ((0 : ℤ), (0 : ℤ), (0 : ℤ)) = (0, 0, 0)) ∧
    (groupStart (sortedKeys ⟨[⟨0, 0, 0⟩, ⟨1, 1, 1⟩], [⟨1, 0, 0⟩, ⟨0, 1, 0⟩], none⟩ 1 true [1, 0]) 0 =
      groupStart (sortedKeys ⟨[⟨0, 0, 0⟩, ⟨1, 1, 1⟩], [⟨1, 0, 0⟩, ⟨0, 1, 0⟩], none⟩ 1 true [1, 0]) 1 ↔
      (sortedKeys ⟨[⟨0, 0, 0⟩, ⟨1, 1, 1⟩], [⟨1, 0, 0⟩, ⟨0, 1, 0⟩], none⟩ 1 true [1, 0]).getD 0 defaultKey =
        (sortedKeys ⟨[⟨0, 0, 0⟩, ⟨1, 1, 1⟩], [⟨1, 0, 0⟩, ⟨0, 1, 0⟩], none⟩ 1 true [1, 0]).getD 1 defaultKey) ∧
    ((⟨[⟨0, 0, 0⟩, ⟨1, 1, 1⟩], [⟨1, 0, 0⟩, ⟨0, 1, 0⟩], none⟩ : PointCloud).colors.map
        (quantizeColor true 1)).count (0, 0, 0) =
      (([⟨0, 1, 0⟩, ⟨1, 0, 0⟩] : List Vec3).map (quantizeColor true 1)).count (0, 0, 0) ∧
    ((sortOrder ⟨[⟨0, 0, 0⟩, ⟨1, 1, 1⟩], [⟨1, 0, 0⟩, ⟨0, 1, 0⟩], none⟩ 1 true [1, 0]).map
      (fun i => ([1, 0] : List ℕ).getD i 0)).count 0 = 1 :=
  prism_sampling_grouping ⟨[⟨0, 0, 0⟩, ⟨1, 1, 1⟩], [⟨1, 0, 0⟩, ⟨0, 1, 0⟩], none⟩ 1 true [1, 0]
    (0, 0, 0) (0, 0, 0) 0 1 [⟨0, 1, 0⟩, ⟨1, 0, 0⟩] (0, 0, 0) 0
    defaultKey_inRange defaultKey_inRange
    (by rw [sortedKeys_length]; decide)
    (by rw [sortedKeys_length]; decide)
    (List.Perm.swap (⟨0, 1, 0⟩ : Vec3) (⟨1, 0, 0⟩ : Vec3) [])
    (by decide) (by decide)

theorem chromaTransform_bounds (d : Vec3) (hx : 0 ≤ d.x) (hy : 0 ≤ d.y) (hz : 0 ≤ d.z) :
    (0 ≤ (chromaTransform d).x ∧ (chromaTransform d).x < 255) ∧
    (0 ≤ (chromaTransform d).y ∧ (chromaTransform d).y < 255) ∧
    (0 ≤ (chromaTransform d).z ∧ (chromaTransform d).z < 255) := by
  have hd : 0 < chromaDenom d := by
    unfold chromaDenom
    linarith
  have key : ∀ v : ℚ, 0 ≤ v → v < chromaDenom d → 0 ≤ v / chromaDenom d * 255 ∧
      v / chromaDenom d * 255 < 255 := by
    intro v hv hlt
    constructor
    · positivity
    · have h1 : v / chromaDenom d < 1 := (div_lt_one hd).mpr hlt
      nlinarith
  refine ⟨key d.x hx (by unfold chromaDenom; linarith),
    key d.y hy (by unfold chromaDenom; linarith),
    key d.z hz (by unfold chromaDenom; linarith)⟩

theorem roundHalfEven_eq_zero {x : ℚ} (h0 : 0 ≤ x) (h1 : x < 1 / 2) :
    roundHalfEven x = 0 := by
  have hfl : ⌊x⌋ = 0 := Int.floor_eq_zero_iff.mpr ⟨h0, by linarith⟩
  unfold roundHalfEven
  rw [hfl]
  rw [if_pos]
  push_cast
  linarith

theorem quant_component_coarse {v q : ℚ} (hv0 : 0 ≤ v) (hv1 : v < 255)
    (hq : 511 ≤ q) : wrap32 (roundHalfEven (v / q)) = 0 := by
  have hqpos : 0 < q := by linarith
  have h0 : 0 ≤ v / q := div_nonneg hv0 (le_of_lt hqpos)
  have h1 : v / q < 1 / 2 := by
    have h2 : v / q ≤ v / 511 :=
      div_le_div_of_nonneg_left hv0 (by norm_num) hq
    calc v / q ≤ v / 511 := h2
      _ < 255 / 511 := by
          rw [div_lt_div_iff_of_pos_right] <;> norm_num
          linarith
      _ < 1 / 2 := by norm_num
  rw [roundHalfEven_eq_zero h0 h1]
  norm_num [wrap32]

/-- Claim C6: in chromaticity mode, two colors that are positive scalar
multiples of each other map to the same quantized bin whenever the
quantization step is coarse enough (here: at least 511, a sufficient
coarseness for any pair, epsilon perturbation included); in raw mode a
brightness-scaled pair generally maps to different bins, witnessed by
`(1,0,0)` versus `(1/2,0,0)` at step 1. -/
theorem chromaticity_invariance (c : Vec3) (lam q : ℚ)
    (hlam : 0 < lam) (hx : 0 ≤ c.x) (hy : 0 ≤ c.y) (hz : 0 ≤ c.z)
    (hq : 511 ≤ q) :
    quantizeColor true q ⟨lam * c.x, lam * c.y, lam * c.z⟩ =
      quantizeColor true q c ∧
    quantizeColor false 1 ⟨1, 0, 0⟩ ≠ quantizeColor false 1 ⟨1 / 2, 0, 0⟩ := by
  constructor
  · have hb1 := chromaTransform_bounds ⟨lam * c.x, lam * c.y, lam * c.z⟩
      (by positivity) (by positivity) (by positivity)
    have hb2 := chromaTransform_bounds c hx hy hz
    unfold quantizeColor
    have hct : colorToBin true = chromaTransform := by
      funext d
      simp [colorToBin]
    rw [hct]
    rw [quant_component_coarse hb1.1.1 hb1.1.2 hq,
      quant_component_coarse hb1.2.1.1 hb1.2.1.2 hq,
      quant_component_coarse hb1.2.2.1 hb1.2.2.2 hq,
      quant_component_coarse hb2.1.1 hb2.1.2 hq,
      quant_component_coarse hb2.2.1.1 hb2.2.1.2 hq,
      quant_component_coarse hb2.2.2.1 hb2.2.2.2 hq]
  · have e1 : quantizeColor false 1 ⟨1, 0, 0⟩ = (255, 0, 0) := by
      norm_num [quantizeColor, colorToBin, rawTransform, roundHalfEven, wrap32]
    have e2 : quantizeColor false 1 ⟨1 / 2, 0, 0⟩ = (128, 0, 0) := by
      norm_num [quantizeColor, colorToBin, rawTransform, roundHalfEven, wrap32]
    rw [e1, e2]
    decide

/-- Witness for C6 at the brightness-scaled pair `(1,0,0)` and
`(1/2)·(1,0,0)` with quantization step 511. -/
theorem chromaticity_invariance_witness :
    quantizeColor true 511 ⟨(1 / 2 : ℚ) * 1, (1 / 2 : ℚ) * 0, (1 / 2 : ℚ) * 0⟩ =
      quantizeColor true 511 ⟨1, 0, 0⟩ ∧
    quantizeColor false 1 ⟨1, 0, 0⟩ ≠ quantizeColor false 1 ⟨1 / 2, 0, 0⟩ :=
  chromaticity_invariance ⟨1, 0, 0⟩ (1 / 2) 511 one_half_pos zero_le_one
    (le_refl 0) (le_refl 0) (le_refl 511)

end PRISM
